import Mathlib

/- Verification development for the Blackjack optimal-strategy calculator
   (src/main.py).  The dealer outcome engine and the player decision engine
   are embedded shallowly: card ranks and scores are naturals, probabilities
   and expected values are rationals, the Python dictionaries become
   association lists (dealer outcome vectors) and optional-valued functions
   (player EV tables), and any dictionary read that can fail with a missing
   key is modelled in the Option monad. -/

-- Rule flags (main.py lines 8-12); all three are enabled in the source.
def dealer_cant_start_with_21 : Bool := true

def dealer_hit_on_soft_17 : Bool := true

def allow_double_after_split : Bool := true

namespace Dealer

/- A dealer outcome vector (Python dict from final-total class to
   probability) is modelled as an association list in insertion order. -/
abbrev Dist := List (ℕ × ℚ)

/-- Hard total of a hand: every card is worth `min rank 10`, aces count 1. -/
def hardScore (hand : List ℕ) : ℕ := (hand.map (fun r => min r 10)).sum

/-- The scoring loop of main.py lines 32-39: a running `(soft, sum)` pair,
the first ace counting as 11 and setting the soft flag. -/
def dealerSoftSumAux : List ℕ → Bool → ℕ → Bool × ℕ
  | [], soft, s => (soft, s)
  | cardRank :: rest, soft, s =>
    if cardRank = 1 ∧ soft = false then dealerSoftSumAux rest true (s + 11)
    else dealerSoftSumAux rest soft (s + min cardRank 10)

def dealerSoftSum (hand : List ℕ) : Bool × ℕ := dealerSoftSumAux hand false 0

/-- Lines 41-43 of main.py: a soft sum over 21 is rescored 10 lower.  Note
that the source does not reset the `soft` flag when it does this. -/
def dealerHandState (hand : List ℕ) : Bool × ℕ :=
  if 21 < (dealerSoftSum hand).2 ∧ (dealerSoftSum hand).1 = true then
    ((dealerSoftSum hand).1, (dealerSoftSum hand).2 - 10)
  else dealerSoftSum hand

/-- Line 46 of main.py: the dealer busts or stands (returns a degenerate
vector) exactly when this is true. -/
def dealerStands (hand : List ℕ) : Bool :=
  decide (17 < (dealerHandState hand).2) ||
    (decide ((dealerHandState hand).2 = 17) &&
      !(dealer_hit_on_soft_17 && (dealerHandState hand).1))

/-- Lines 51-58 of main.py: the enumeration of the dealer's next card,
restricted for the two literal single-card hands `[1]` and `[10]` when the
no-initial-blackjack rule is on. -/
def possibleNextCards (hand : List ℕ) : List ℕ :=
  if hand = [1] ∧ dealer_cant_start_with_21 = true then
    [1, 2, 3, 4, 5, 6, 7, 8, 9]
  else if hand = [10] ∧ dealer_cant_start_with_21 = true then
    [2, 3, 4, 5, 6, 7, 8, 9, 10, 11, 12, 13]
  else
    [1, 2, 3, 4, 5, 6, 7, 8, 9, 10, 11, 12, 13]

/-- The dict update of lines 68-71: add `v` to the entry at `key`, or append
a new entry if the key is absent. -/
def addToOutcomes : Dist → ℕ → ℚ → Dist
  | [], key, v => [(key, v)]
  | kv :: rest, key, v =>
    if kv.1 = key then (kv.1, kv.2 + v) :: rest
    else kv :: addToOutcomes rest key v

/-- Merge a recursive result into the accumulating vector, each value scaled
by `1/n` (the loop on lines 67-71 of main.py). -/
def mergeOutcomes (outcomes newOutcomes : Dist) (n : ℕ) : Dist :=
  newOutcomes.foldl (fun acc kv => addToOutcomes acc kv.1 (kv.2 / (n : ℚ))) outcomes

def sumValues (d : Dist) : ℚ := (d.map Prod.snd).sum

/-- Recursive dealer evaluator (main.py lines 22-78): returns the probability
vector of the dealer's final total classes 17, 18, 19, 20, 21 or 22 (bust),
starting from `hand`. -/
def evaluateDealerHand (hand : List ℕ) : Dist :=
  if _hstand : dealerStands hand = true then
    [(min (dealerHandState hand).2 22, 1)]
  else
    ((possibleNextCards hand).attach.map
        (fun r => evaluateDealerHand (hand ++ [r.1]))).foldl
      (fun outcomes newOutcomes =>
        mergeOutcomes outcomes newOutcomes (possibleNextCards hand).length) []
termination_by 18 - hardScore hand
decreasing_by
  have hG : ∀ (l : List ℕ) (b : Bool) (s : ℕ),
      (b = true → (dealerSoftSumAux l b s).1 = true) ∧
      (dealerSoftSumAux l b s).2 =
        s + hardScore l +
          (if b = false ∧ (dealerSoftSumAux l b s).1 = true then 10 else 0) := by
    intro l
    induction l with
    | nil =>
      intro b s
      constructor
      · intro hb
        simp [dealerSoftSumAux, hb]
      · cases b <;> simp [dealerSoftSumAux, hardScore]
    | cons a t ih =>
      intro b s
      by_cases hab : a = 1 ∧ b = false
      · rcases hab with ⟨ha, hb⟩
        subst ha
        subst hb
        rw [show dealerSoftSumAux (1 :: t) false s = dealerSoftSumAux t true (s + 11) by
          simp [dealerSoftSumAux]]
        have ih1 := (ih true (s + 11)).1 rfl
        have ih2 := (ih true (s + 11)).2
        refine ⟨fun _ => ih1, ?_⟩
        rw [ih2, ih1]
        simp [hardScore]
        omega
      · rw [show dealerSoftSumAux (a :: t) b s = dealerSoftSumAux t b (s + min a 10) by
          simp only [dealerSoftSumAux, if_neg hab]]
        have ih1 := (ih b (s + min a 10)).1
        have ih2 := (ih b (s + min a 10)).2
        refine ⟨ih1, ?_⟩
        rw [ih2]
        simp [hardScore]
        omega
  have hval : (dealerSoftSum hand).2 =
      hardScore hand + (if (dealerSoftSum hand).1 = true then 10 else 0) := by
    have h := (hG hand false 0).2
    simpa [dealerSoftSum] using h
  have hardle : hardScore hand ≤ (dealerHandState hand).2 := by
    unfold dealerHandState
    split
    · rename_i hc
      rw [if_pos hc.2] at hval
      simp only
      omega
    · by_cases h1 : (dealerSoftSum hand).1 = true
      · rw [if_pos h1] at hval
        omega
      · rw [if_neg h1] at hval
        omega
  have hstle : (dealerHandState hand).2 ≤ 17 := by
    have hns : ¬ dealerStands hand = true := _hstand
    unfold dealerStands at hns
    simp only [Bool.or_eq_true, decide_eq_true_eq, Bool.and_eq_true, not_or] at hns
    omega
  have hr1 : 1 ≤ r.1 := by
    have hmem := r.2
    unfold possibleNextCards at hmem
    split at hmem
    · simp at hmem
      omega
    · split at hmem <;> (simp at hmem; omega)
  have happ : hardScore (hand ++ [r.1]) = hardScore hand + min r.1 10 := by
    simp [hardScore]
  have hminr : 1 ≤ min r.1 10 := le_min hr1 (by norm_num)
  omega

/-- Fuel-indexed variant of `evaluateDealerHand`, used to state that the
recursion terminates within a bounded depth: it returns `none` exactly when
the fuel runs out before the recursion bottoms out. -/
def evaluateDealerHandF : ℕ → List ℕ → Option Dist
  | 0, _ => none
  | fuel + 1, hand =>
    if dealerStands hand = true then
      some [(min (dealerHandState hand).2 22, 1)]
    else
      (possibleNextCards hand).foldlM
        (fun outcomes r =>
          (evaluateDealerHandF fuel (hand ++ [r])).map
            (fun newOutcomes =>
              mergeOutcomes outcomes newOutcomes (possibleNextCards hand).length))
        []

/-- The master outcome mapping built by `Dealer.__init__` (main.py lines
82-85); the constructor populates it for up-card ranks 1..10. -/
def dealerOutcomeMap (rank : ℕ) : Dist := evaluateDealerHand [rank]

/-- Getter for the outcome vector of a given up-card (main.py lines 88-89),
parametrised by the outcome mapping held by the object. -/
def getDealerOutcomeGen (outcomeMap : ℕ → Dist) (dealerUpCard : ℕ) : Dist :=
  outcomeMap (min dealerUpCard 10)

def getDealerOutcome (dealerUpCard : ℕ) : Dist :=
  getDealerOutcomeGen dealerOutcomeMap dealerUpCard

/-- The accumulation loop of `getExpectedPayoff` (main.py lines 97-113):
win adds the probability, loss subtracts it, a push adds nothing. -/
def payoffLoopAux : Dist → ℕ → ℚ → ℚ
  | [], _, acc => acc
  | kv :: rest, playerScore, acc =>
    if kv.1 = 22 ∨ kv.1 < playerScore then payoffLoopAux rest playerScore (acc + kv.2)
    else if playerScore < kv.1 then payoffLoopAux rest playerScore (acc - kv.2)
    else payoffLoopAux rest playerScore acc

/-- Expected payoff of standing on `playerScore` against `dealerUpCard`
(main.py lines 93-114), parametrised by the object's outcome mapping. -/
def getExpectedPayoffGen (outcomeMap : ℕ → Dist) (dealerUpCard playerScore : ℕ) : ℚ :=
  if 21 < playerScore then -1
  else payoffLoopAux (getDealerOutcomeGen outcomeMap dealerUpCard) playerScore 0

def getExpectedPayoff (dealerUpCard playerScore : ℕ) : ℚ :=
  getExpectedPayoffGen dealerOutcomeMap dealerUpCard playerScore

/-- Specification-side definition, following the spec's words: the payoff is
the sum, over the outcome classes of the vector, of the probability signed
positively for a player win (dealer bust or lower class), negatively for a
loss, and zero for a push. -/
def payoffSpecSum (outcomes : Dist) (playerScore : ℕ) : ℚ :=
  (outcomes.map (fun kv =>
    if kv.1 = 22 ∨ kv.1 < playerScore then kv.2
    else if playerScore < kv.1 then -kv.2 else 0)).sum

/-- Specification-side definition, following the spec's glossary: a hand is
soft exactly when it holds an ace that can count as 11 without busting. -/
def specSoftHand (hand : List ℕ) : Bool :=
  decide (1 ∈ hand) && decide (hardScore hand + 10 ≤ 21)

end Dealer

namespace Player

/-- The three evaluated options returned by `evaluatePlayerHand` (the Python
dict with keys HIT, STAND, DOUBLE). -/
structure Choices where
  HIT : ℚ
  STAND : ℚ
  DOUBLE : ℚ
  deriving DecidableEq

/-- The Player class state: three EV dictionaries keyed by score, softness
and dealer up-card, the split-EV dictionary, and the pair base-hand map
(main.py lines 124-135).  A missing dictionary key is `none`. -/
structure PlayerTables where
  expectedValueByScoreIfHit : ℕ → Bool → ℕ → Option ℚ
  expectedValueByScoreIfStand : ℕ → Bool → ℕ → Option ℚ
  expectedValueByScoreIfDouble : ℕ → Bool → ℕ → Option ℚ
  expectedValueForPair : ℕ → ℕ → Option ℚ
  pairMapToBaseHand : ℕ → Option (ℕ × Bool)

/-- Lines 149-151 of main.py: a lone ace evaluated as a first card becomes
score 11, soft. -/
def adjustForFirstCard (playerScore : ℕ) (soft : Bool) (firstCard : Bool) : ℕ × Bool :=
  if playerScore = 1 ∧ firstCard = true then (11, true) else (playerScore, soft)

/-- Lines 154-156 (and 173-175) of main.py: a soft score over 21 is rescored
as hard, 10 lower. -/
def adjustSoftBust (p : ℕ × Bool) : ℕ × Bool :=
  if 21 < p.1 ∧ p.2 = true then (p.1 - 10, false) else p

/-- Lines 171-175 of main.py: the (score, softness) reached from a hand by
drawing one card of rank `newRank`; an ace adds 11 to a hard hand, any other
draw adds `min rank 10`, and a busted soft total is rescored hard. -/
def hitStep (playerScore : ℕ) (soft : Bool) (newRank : ℕ) : ℕ × Bool :=
  adjustSoftBust
    (playerScore + (if soft = true ∨ 1 < newRank then min newRank 10 else 11),
     soft || newRank == 1)

/-- Line 168 of main.py: the 13 equally likely ranks of the next card. -/
def playerPossibleNextCards : List ℕ := [1, 2, 3, 4, 5, 6, 7, 8, 9, 10, 11, 12, 13]

/-- Lines 212-222 of main.py: the optimal EV for a (score, soft) hand, read
from the precomputed tables; a missing table entry is a `none` result (a
KeyError in the source). -/
def getExpectedValue (tbl : PlayerTables) (playerScore : ℕ) (soft : Bool)
    (dealerUpCard : ℕ) (doubleAllowed : Bool) : Option ℚ :=
  if 21 < playerScore then some (-1)
  else
    match tbl.expectedValueByScoreIfHit playerScore soft dealerUpCard,
          tbl.expectedValueByScoreIfStand playerScore soft dealerUpCard,
          tbl.expectedValueByScoreIfDouble playerScore soft dealerUpCard with
    | some evHit, some evStand, some evDouble =>
      some (if doubleAllowed = true then max (max evHit evStand) evDouble
            else max evHit evStand)
    | _, _, _ => none

/-- The loop of main.py lines 169-186: accumulates the hit EV (first
component) and the double EV (second component) over the possible next
cards, failing if any table lookup fails. -/
def hitLoop (tbl : PlayerTables) (payoff : ℕ → ℕ → ℚ) (dealerUpCard : ℕ)
    (doubleAllowed : Bool) (playerScore : ℕ) (soft : Bool) :
    List ℕ → ℚ × ℚ → Option (ℚ × ℚ)
  | [], acc => some acc
  | newRank :: rest, acc =>
    match getExpectedValue tbl (hitStep playerScore soft newRank).1
        (hitStep playerScore soft newRank).2 dealerUpCard doubleAllowed with
    | none => none
    | some ev =>
      hitLoop tbl payoff dealerUpCard doubleAllowed playerScore soft rest
        (acc.1 + (1 / (playerPossibleNextCards.length : ℚ)) * ev,
         acc.2 + (2 / (playerPossibleNextCards.length : ℚ)) *
           payoff dealerUpCard (hitStep playerScore soft newRank).1)

/-- main.py lines 143-193: evaluates hitting, standing and doubling for a
player hand against a dealer up-card.  The dealer object is abstracted by
its `payoff` method. -/
def evaluatePlayerHand (tbl : PlayerTables) (payoff : ℕ → ℕ → ℚ)
    (playerScore : ℕ) (soft : Bool) (dealerUpCard : ℕ) (firstCard : Bool) :
    Option Choices :=
  if 21 < (adjustSoftBust (adjustForFirstCard playerScore soft firstCard)).1 then
    some ⟨-1, -1, -1⟩
  else
    (hitLoop tbl payoff dealerUpCard (firstCard && allow_double_after_split)
        (adjustSoftBust (adjustForFirstCard playerScore soft firstCard)).1
        (adjustSoftBust (adjustForFirstCard playerScore soft firstCard)).2
        playerPossibleNextCards (0, 0)).map
      (fun acc =>
        ⟨acc.1,
         payoff dealerUpCard
           (adjustSoftBust (adjustForFirstCard playerScore soft firstCard)).1,
         acc.2⟩)

/-- main.py lines 197-207: the EV of splitting a pair is twice the hit EV of
the single-card hand. -/
def expectedValueOfSplittingPair (tbl : PlayerTables) (payoff : ℕ → ℕ → ℚ)
    (pairCard dealerUpCard : ℕ) : Option ℚ :=
  (evaluatePlayerHand tbl payoff pairCard (pairCard == 1) dealerUpCard true).map
    (fun choices => 2 * choices.HIT)

/-- main.py lines 225-238: computes the three EVs for one (score, soft,
up-card) key and stores them in the three EV dictionaries. -/
def setExpectedValue (payoff : ℕ → ℕ → ℚ) (tbl : PlayerTables) (playerScore : ℕ)
    (soft : Bool) (dealerUpCard : ℕ) : Option PlayerTables :=
  (evaluatePlayerHand tbl payoff playerScore soft dealerUpCard false).map
    fun choices =>
      { tbl with
        expectedValueByScoreIfHit := fun s so u =>
          if s = playerScore ∧ so = soft ∧ u = dealerUpCard then some choices.HIT
          else tbl.expectedValueByScoreIfHit s so u
        expectedValueByScoreIfStand := fun s so u =>
          if s = playerScore ∧ so = soft ∧ u = dealerUpCard then some choices.STAND
          else tbl.expectedValueByScoreIfStand s so u
        expectedValueByScoreIfDouble := fun s so u =>
          if s = playerScore ∧ so = soft ∧ u = dealerUpCard then some choices.DOUBLE
          else tbl.expectedValueByScoreIfDouble s so u }

/-- The (score, softness) build order of the constructor's inner loops
(main.py lines 405-419): hard 21 down to 11, soft 21 down to 11, hard 10
down to 1, soft 10 down to 1. -/
def scoreOrder : List (ℕ × Bool) :=
  ((List.range' 11 11).reverse.map (fun s => (s, false))) ++
    ((List.range' 11 11).reverse.map (fun s => (s, true))) ++
    ((List.range' 1 10).reverse.map (fun s => (s, false))) ++
    ((List.range' 1 10).reverse.map (fun s => (s, true)))

/-- The pair ranks 1..10 looped over on main.py line 422. -/
def pairCards : List ℕ := List.range' 1 10

/-- The dealer up-cards 1..10 looped over on main.py line 403. -/
def upCards : List ℕ := List.range' 1 10

/-- The player's tables before the constructor loops run: the EV
dictionaries are empty and the pair maps are prefilled (main.py lines
124-135 and 395-400). -/
def initialTables : PlayerTables where
  expectedValueByScoreIfHit := fun _ _ _ => none
  expectedValueByScoreIfStand := fun _ _ _ => none
  expectedValueByScoreIfDouble := fun _ _ _ => none
  expectedValueForPair := fun _ _ => none
  pairMapToBaseHand := fun pairCard =>
    if pairCard = 1 then some (12, true)
    else if 2 ≤ pairCard ∧ pairCard ≤ 10 then some (pairCard * 2, false)
    else none

/-- Runs `setExpectedValue` on a list of (score, soft) keys for one
up-card, propagating a missing-key failure. -/
def runSetSteps (payoff : ℕ → ℕ → ℚ) (dealerUpCard : ℕ) :
    List (ℕ × Bool) → PlayerTables → Option PlayerTables
  | [], tbl => some tbl
  | k :: rest, tbl =>
    match setExpectedValue payoff tbl k.1 k.2 dealerUpCard with
    | none => none
    | some tbl2 => runSetSteps payoff dealerUpCard rest tbl2

/-- Runs the pair-EV loop of main.py lines 421-424 for one up-card. -/
def runPairSteps (payoff : ℕ → ℕ → ℚ) (dealerUpCard : ℕ) :
    List ℕ → PlayerTables → Option PlayerTables
  | [], tbl => some tbl
  | pairCard :: rest, tbl =>
    match expectedValueOfSplittingPair tbl payoff pairCard dealerUpCard with
    | none => none
    | some ev =>
      runPairSteps payoff dealerUpCard rest
        { tbl with
          expectedValueForPair := fun p u =>
            if p = pairCard ∧ u = dealerUpCard then some ev
            else tbl.expectedValueForPair p u }

/-- One iteration of the constructor's outer loop (main.py lines 403-424):
all 42 score keys in order, then the 10 pair EVs, for one up-card. -/
def buildForUpCard (payoff : ℕ → ℕ → ℚ) (dealerUpCard : ℕ) (tbl : PlayerTables) :
    Option PlayerTables :=
  match runSetSteps payoff dealerUpCard scoreOrder tbl with
  | none => none
  | some tbl2 => runPairSteps payoff dealerUpCard pairCards tbl2

def runUpCards (payoff : ℕ → ℕ → ℚ) : List ℕ → PlayerTables → Option PlayerTables
  | [], tbl => some tbl
  | u :: rest, tbl =>
    match buildForUpCard payoff u tbl with
    | none => none
    | some tbl2 => runUpCards payoff rest tbl2

/-- The whole `Player.__init__` table construction (main.py lines 392-424),
abstracted over the dealer's payoff method: `none` would mean some EV table
was read at an unpopulated key during the build. -/
def playerInit (payoff : ℕ → ℕ → ℚ) : Option PlayerTables :=
  runUpCards payoff upCards initialTables

/-- An entry of the three EV dictionaries is populated for a key. -/
def EVDom (tbl : PlayerTables) (s : ℕ) (so : Bool) (u : ℕ) : Prop :=
  (tbl.expectedValueByScoreIfHit s so u).isSome = true ∧
    (tbl.expectedValueByScoreIfStand s so u).isSome = true ∧
    (tbl.expectedValueByScoreIfDouble s so u).isSome = true

/-- The (score, softness) keys whose EV-table entries `evaluatePlayerHand`
reads during its hit lookahead; an entry with score above 21 short-circuits
inside `getExpectedValue` and reads nothing. -/
def handReadTargets (playerScore : ℕ) (soft : Bool) (firstCard : Bool) :
    List (ℕ × Bool) :=
  if 21 < (adjustSoftBust (adjustForFirstCard playerScore soft firstCard)).1 then []
  else
    playerPossibleNextCards.map
      (fun r =>
        hitStep (adjustSoftBust (adjustForFirstCard playerScore soft firstCard)).1
          (adjustSoftBust (adjustForFirstCard playerScore soft firstCard)).2 r)

/-- Decides that every key read by each step of a build order is either a
bust score (no read happens) or was populated by an earlier step. -/
def checkOrder : List (ℕ × Bool) → List (ℕ × Bool) → Bool
  | _, [] => true
  | done, k :: rest =>
    (handReadTargets k.1 k.2 false).all
        (fun t => decide (21 < t.1) || decide (t ∈ done)) &&
      checkOrder (done ++ [k]) rest

/-- A fully populated table, used to witness theorems about single calls. -/
def constTables : PlayerTables where
  expectedValueByScoreIfHit := fun _ _ _ => some 0
  expectedValueByScoreIfStand := fun _ _ _ => some 0
  expectedValueByScoreIfDouble := fun _ _ _ => some 0
  expectedValueForPair := fun _ _ => some 0
  pairMapToBaseHand := fun _ => some (0, false)

/-- A trivial stand-in for the dealer's payoff method, used in witnesses. -/
def zeroPayoff : ℕ → ℕ → ℚ := fun _ _ => 0

end Player

namespace Dealer

theorem dealerSoftSumAux_char (l : List ℕ) : ∀ (b : Bool) (s : ℕ),
    (b = true → (dealerSoftSumAux l b s).1 = true) ∧
    (dealerSoftSumAux l b s).2 =
      s + hardScore l +
        (if b = false ∧ (dealerSoftSumAux l b s).1 = true then 10 else 0) := by
  induction l with
  | nil =>
    intro b s
    constructor
    · intro hb
      simp [dealerSoftSumAux, hb]
    · cases b <;> simp [dealerSoftSumAux, hardScore]
  | cons a t ih =>
    intro b s
    by_cases hab : a = 1 ∧ b = false
    · rcases hab with ⟨ha, hb⟩
      subst ha
      subst hb
      rw [show dealerSoftSumAux (1 :: t) false s = dealerSoftSumAux t true (s + 11) by
        simp [dealerSoftSumAux]]
      have ih1 := (ih true (s + 11)).1 rfl
      have ih2 := (ih true (s + 11)).2
      refine ⟨fun _ => ih1, ?_⟩
      rw [ih2, ih1]
      simp [hardScore]
      omega
    · rw [show dealerSoftSumAux (a :: t) b s = dealerSoftSumAux t b (s + min a 10) by
        simp only [dealerSoftSumAux, if_neg hab]]
      have ih1 := (ih b (s + min a 10)).1
      have ih2 := (ih b (s + min a 10)).2
      refine ⟨ih1, ?_⟩
      rw [ih2]
      simp [hardScore]
      omega

theorem dealerSoftSum_val (hand : List ℕ) :
    (dealerSoftSum hand).2 =
      hardScore hand + (if (dealerSoftSum hand).1 = true then 10 else 0) := by
  have h := (dealerSoftSumAux_char hand false 0).2
  simpa [dealerSoftSum] using h

theorem hardScore_le_handState (hand : List ℕ) :
    hardScore hand ≤ (dealerHandState hand).2 := by
  have hval := dealerSoftSum_val hand
  unfold dealerHandState
  split
  · rename_i hc
    rw [if_pos hc.2] at hval
    simp only
    omega
  · by_cases h1 : (dealerSoftSum hand).1 = true
    · rw [if_pos h1] at hval
      omega
    · rw [if_neg h1] at hval
      omega

theorem handState_le_of_not_stands (hand : List ℕ) (h : ¬ dealerStands hand = true) :
    (dealerHandState hand).2 ≤ 17 := by
  unfold dealerStands at h
  simp only [Bool.or_eq_true, decide_eq_true_eq, Bool.and_eq_true, not_or] at h
  omega

theorem stands_17_le (hand : List ℕ) (h : dealerStands hand = true) :
    17 ≤ (dealerHandState hand).2 := by
  unfold dealerStands at h
  simp only [Bool.or_eq_true, decide_eq_true_eq, Bool.and_eq_true] at h
  omega

theorem mem_possibleNextCards_pos {hand : List ℕ} {r : ℕ}
    (h : r ∈ possibleNextCards hand) : 1 ≤ r := by
  unfold possibleNextCards at h
  split at h
  · simp at h
    omega
  · split at h <;> (simp at h; omega)

theorem possibleNextCards_length_pos (hand : List ℕ) :
    0 < (possibleNextCards hand).length := by
  unfold possibleNextCards
  split
  · simp
  · split <;> simp

theorem hardScore_append (hand : List ℕ) (r : ℕ) :
    hardScore (hand ++ [r]) = hardScore hand + min r 10 := by
  simp [hardScore]

theorem evaluateDealerHand_eq (hand : List ℕ) :
    evaluateDealerHand hand =
      if dealerStands hand = true then [(min (dealerHandState hand).2 22, 1)]
      else
        ((possibleNextCards hand).map (fun r => evaluateDealerHand (hand ++ [r]))).foldl
          (fun outcomes newOutcomes =>
            mergeOutcomes outcomes newOutcomes (possibleNextCards hand).length) [] := by
  rw [evaluateDealerHand]
  by_cases h : dealerStands hand = true
  · rw [dif_pos h, if_pos h]
  · rw [dif_neg h, if_neg h]
    congr 1
    exact List.attach_map_val (possibleNextCards hand)
      (fun r => evaluateDealerHand (hand ++ [r]))

theorem sumValues_nil : sumValues [] = 0 := rfl

theorem sumValues_cons (kv : ℕ × ℚ) (d : Dist) :
    sumValues (kv :: d) = kv.2 + sumValues d := by
  simp [sumValues]

theorem sumValues_addToOutcomes (d : Dist) (k : ℕ) (v : ℚ) :
    sumValues (addToOutcomes d k v) = sumValues d + v := by
  induction d with
  | nil => simp [addToOutcomes, sumValues]
  | cons kv rest ih =>
    unfold addToOutcomes
    split
    · rw [sumValues_cons, sumValues_cons]
      ring
    · rw [sumValues_cons, sumValues_cons, ih]
      ring

theorem addToOutcomes_props (P : ℕ → Prop) (k : ℕ) (v : ℚ) (hk : P k) (hv : 0 ≤ v) :
    ∀ (d : Dist), (∀ kv ∈ d, P kv.1 ∧ 0 ≤ kv.2) →
      ∀ kv ∈ addToOutcomes d k v, P kv.1 ∧ 0 ≤ kv.2 := by
  intro d
  induction d with
  | nil =>
    intro _ kv hkv
    simp [addToOutcomes] at hkv
    subst hkv
    exact ⟨hk, hv⟩
  | cons kv0 rest ih =>
    intro hd kv hkv
    unfold addToOutcomes at hkv
    split at hkv
    · rcases List.mem_cons.1 hkv with h | h
      · subst h
        have h0 := hd kv0 (List.mem_cons_self _ _)
        exact ⟨h0.1, by have := h0.2; positivity⟩
      · exact hd kv (List.mem_cons_of_mem _ h)
    · rcases List.mem_cons.1 hkv with h | h
      · subst h
        exact hd _ (List.mem_cons_self _ _)
      · exact ih (fun kv2 hkv2 => hd kv2 (List.mem_cons_of_mem _ hkv2)) kv h

theorem mergeOutcomes_nil (o : Dist) (n : ℕ) : mergeOutcomes o [] n = o := rfl

theorem mergeOutcomes_cons (o : Dist) (kv : ℕ × ℚ) (rest : Dist) (n : ℕ) :
    mergeOutcomes o (kv :: rest) n =
      mergeOutcomes (addToOutcomes o kv.1 (kv.2 / (n : ℚ))) rest n := rfl

theorem sumValues_mergeOutcomes (n : ℕ) :
    ∀ (new o : Dist), sumValues (mergeOutcomes o new n) = sumValues o + sumValues new / n := by
  intro new
  induction new with
  | nil => intro o; simp [mergeOutcomes, sumValues]
  | cons kv rest ih =>
    intro o
    rw [mergeOutcomes_cons, ih, sumValues_addToOutcomes, sumValues_cons, add_div]
    ring

theorem mergeOutcomes_props (P : ℕ → Prop) (n : ℕ) :
    ∀ (new o : Dist), (∀ kv ∈ new, P kv.1 ∧ 0 ≤ kv.2) →
      (∀ kv ∈ o, P kv.1 ∧ 0 ≤ kv.2) →
      ∀ kv ∈ mergeOutcomes o new n, P kv.1 ∧ 0 ≤ kv.2 := by
  intro new
  induction new with
  | nil => intro o _ ho; simpa [mergeOutcomes] using ho
  | cons kv0 rest ih =>
    intro o hnew ho
    rw [mergeOutcomes_cons]
    refine ih _ (fun kv2 hkv2 => hnew kv2 (List.mem_cons_of_mem _ hkv2)) ?_
    refine addToOutcomes_props P kv0.1 (kv0.2 / (n : ℚ))
      (hnew kv0 (List.mem_cons_self _ _)).1 ?_ o ho
    have h0 := (hnew kv0 (List.mem_cons_self _ _)).2
    positivity

theorem foldl_mergeOutcomes (n : ℕ) (P : ℕ → Prop) :
    ∀ (ds : List Dist) (o : Dist),
      (∀ d ∈ ds, sumValues d = 1 ∧ ∀ kv ∈ d, P kv.1 ∧ 0 ≤ kv.2) →
      (∀ kv ∈ o, P kv.1 ∧ 0 ≤ kv.2) →
      sumValues (ds.foldl
          (fun outcomes newOutcomes => mergeOutcomes outcomes newOutcomes n) o) =
        sumValues o + (ds.length : ℚ) / n ∧
      ∀ kv ∈ ds.foldl
          (fun outcomes newOutcomes => mergeOutcomes outcomes newOutcomes n) o,
        P kv.1 ∧ 0 ≤ kv.2 := by
  intro ds
  induction ds with
  | nil => intro o _ ho; simpa [sumValues] using ho
  | cons d rest ih =>
    intro o hds ho
    rw [List.foldl_cons]
    have hd := hds d (List.mem_cons_self _ _)
    have hrest := fun d2 hd2 => hds d2 (List.mem_cons_of_mem _ hd2)
    have hmerged := mergeOutcomes_props P n d o hd.2 ho
    have := ih (mergeOutcomes o d n) hrest hmerged
    refine ⟨?_, this.2⟩
    rw [this.1, sumValues_mergeOutcomes, hd.1, List.length_cons]
    push_cast
    ring

theorem dealer_stand_case (hand : List ℕ) (h : dealerStands hand = true) :
    sumValues (evaluateDealerHand hand) = 1 ∧
      ∀ kv ∈ evaluateDealerHand hand, (17 ≤ kv.1 ∧ kv.1 ≤ 22) ∧ 0 ≤ kv.2 := by
  rw [evaluateDealerHand_eq, if_pos h]
  refine ⟨by simp [sumValues], ?_⟩
  intro kv hkv
  simp only [List.mem_singleton] at hkv
  subst hkv
  have h17 := stands_17_le hand h
  refine ⟨⟨le_min h17 (by norm_num), min_le_right _ _⟩, by norm_num⟩

theorem dealer_dist_strong : ∀ (m : ℕ) (hand : List ℕ), 18 - hardScore hand ≤ m →
    sumValues (evaluateDealerHand hand) = 1 ∧
      ∀ kv ∈ evaluateDealerHand hand, (17 ≤ kv.1 ∧ kv.1 ≤ 22) ∧ 0 ≤ kv.2 := by
  intro m
  induction m with
  | zero =>
    intro hand h0
    have h18 : 18 ≤ hardScore hand := by omega
    have hst : 17 < (dealerHandState hand).2 :=
      lt_of_lt_of_le (by omega) (le_trans h18 (hardScore_le_handState hand))
    refine dealer_stand_case hand ?_
    unfold dealerStands
    simp [hst]
  | succ m ih =>
    intro hand hm
    by_cases hs : dealerStands hand = true
    · exact dealer_stand_case hand hs
    · have hhard : hardScore hand ≤ 17 :=
        le_trans (hardScore_le_handState hand) (handState_le_of_not_stands hand hs)
      rw [evaluateDealerHand_eq, if_neg hs]
      have hds : ∀ d ∈ (possibleNextCards hand).map
          (fun r => evaluateDealerHand (hand ++ [r])),
          sumValues d = 1 ∧ ∀ kv ∈ d, (17 ≤ kv.1 ∧ kv.1 ≤ 22) ∧ 0 ≤ kv.2 := by
        intro d hd
        rcases List.mem_map.1 hd with ⟨r, hr, rfl⟩
        refine ih (hand ++ [r]) ?_
        have hpos := mem_possibleNextCards_pos hr
        have happ := hardScore_append hand r
        have : 1 ≤ min r 10 := le_min hpos (by norm_num)
        omega
      have hfold := foldl_mergeOutcomes (possibleNextCards hand).length
        (fun k => 17 ≤ k ∧ k ≤ 22)
        ((possibleNextCards hand).map (fun r => evaluateDealerHand (hand ++ [r])))
        [] hds (by simp)
      refine ⟨?_, hfold.2⟩
      rw [hfold.1]
      have hlen : ((possibleNextCards hand).length : ℚ) ≠ 0 := by
        have := possibleNextCards_length_pos hand
        positivity
      simp [sumValues, div_self hlen]

theorem dealer_dist_props (hand : List ℕ) :
    sumValues (evaluateDealerHand hand) = 1 ∧
      ∀ kv ∈ evaluateDealerHand hand, (17 ≤ kv.1 ∧ kv.1 ≤ 22) ∧ 0 ≤ kv.2 :=
  dealer_dist_strong (18 - hardScore hand) hand le_rfl

end Dealer

namespace Dealer

theorem payoffSpecSum_nil (playerScore : ℕ) : payoffSpecSum [] playerScore = 0 := rfl

theorem payoffSpecSum_cons (kv : ℕ × ℚ) (rest : Dist) (playerScore : ℕ) :
    payoffSpecSum (kv :: rest) playerScore =
      (if kv.1 = 22 ∨ kv.1 < playerScore then kv.2
       else if playerScore < kv.1 then -kv.2 else 0) +
        payoffSpecSum rest playerScore := by
  simp [payoffSpecSum]

theorem payoffLoopAux_eq (playerScore : ℕ) :
    ∀ (o : Dist) (acc : ℚ),
      payoffLoopAux o playerScore acc = acc + payoffSpecSum o playerScore := by
  intro o
  induction o with
  | nil => intro acc; simp [payoffLoopAux, payoffSpecSum]
  | cons kv rest ih =>
    intro acc
    rw [payoffSpecSum_cons]
    unfold payoffLoopAux
    split
    · rw [ih]
      ring
    · split
      · rw [ih]
        ring
      · rw [ih]
        ring

theorem payoffSpecSum_bounds (playerScore : ℕ) :
    ∀ (o : Dist), (∀ kv ∈ o, 0 ≤ kv.2) →
      -(sumValues o) ≤ payoffSpecSum o playerScore ∧
        payoffSpecSum o playerScore ≤ sumValues o := by
  intro o
  induction o with
  | nil => intro _; simp [payoffSpecSum, sumValues]
  | cons kv rest ih =>
    intro h
    have hv := h kv (List.mem_cons_self _ _)
    have ihr := ih (fun kv2 hkv2 => h kv2 (List.mem_cons_of_mem _ hkv2))
    rw [payoffSpecSum_cons, sumValues_cons]
    split
    · constructor <;> linarith [ihr.1, ihr.2]
    · split
      · constructor <;> linarith [ihr.1, ihr.2]
      · constructor <;> linarith [ihr.1, ihr.2]

theorem evaluateDealerHandF_eq : ∀ (fuel : ℕ) (hand : List ℕ),
    18 - hardScore hand < fuel →
    evaluateDealerHandF fuel hand = some (evaluateDealerHand hand) := by
  intro fuel
  induction fuel with
  | zero => intro hand h; omega
  | succ m ih =>
    intro hand _
    simp only [evaluateDealerHandF]
    by_cases hs : dealerStands hand = true
    · rw [if_pos hs, evaluateDealerHand_eq, if_pos hs]
    · rw [if_neg hs, evaluateDealerHand_eq, if_neg hs]
      have hhard : hardScore hand ≤ 17 :=
        le_trans (hardScore_le_handState hand) (handState_le_of_not_stands hand hs)
      have hchild : ∀ r ∈ possibleNextCards hand,
          evaluateDealerHandF m (hand ++ [r]) = some (evaluateDealerHand (hand ++ [r])) := by
        intro r hr
        refine ih (hand ++ [r]) ?_
        have hpos := mem_possibleNextCards_pos hr
        have happ := hardScore_append hand r
        have : 1 ≤ min r 10 := le_min hpos (by norm_num)
        omega
      have hfold : ∀ (l : List ℕ) (o : Dist),
          (∀ r ∈ l, evaluateDealerHandF m (hand ++ [r]) =
            some (evaluateDealerHand (hand ++ [r]))) →
          l.foldlM (fun outcomes r =>
              (evaluateDealerHandF m (hand ++ [r])).map
                (fun newOutcomes =>
                  mergeOutcomes outcomes newOutcomes (possibleNextCards hand).length)) o
            = some (l.foldl (fun outcomes r =>
                mergeOutcomes outcomes (evaluateDealerHand (hand ++ [r]))
                  (possibleNextCards hand).length) o) := by
        intro l
        induction l with
        | nil => intro o _; simp
        | cons r t ihl =>
          intro o hl
          rw [List.foldlM_cons, hl r (List.mem_cons_self _ _)]
          simp only [Option.map_some', Option.some_bind, List.foldl_cons]
          exact ihl _ (fun r2 hr2 => hl r2 (List.mem_cons_of_mem _ hr2))
      rw [hfold (possibleNextCards hand) [] hchild, List.foldl_map]

/-- Claim C2: for every dealer up-card (indeed for every outcome vector the
evaluator returns, on any hand), every key is an outcome class in 17..22
(with 22 standing for a bust) and the probabilities sum to exactly 1. -/
theorem claim_C2_dealer_distribution :
    (∀ dealerUpCard : ℕ,
        (getDealerOutcome dealerUpCard).all
            (fun kv => decide (17 ≤ kv.1 ∧ kv.1 ≤ 22)) = true ∧
          sumValues (getDealerOutcome dealerUpCard) = 1) ∧
      ∀ hand : List ℕ,
        (evaluateDealerHand hand).all
            (fun kv => decide (17 ≤ kv.1 ∧ kv.1 ≤ 22)) = true ∧
          sumValues (evaluateDealerHand hand) = 1 := by
  have key : ∀ hand : List ℕ,
      (evaluateDealerHand hand).all
          (fun kv => decide (17 ≤ kv.1 ∧ kv.1 ≤ 22)) = true ∧
        sumValues (evaluateDealerHand hand) = 1 := by
    intro hand
    have h := dealer_dist_props hand
    refine ⟨?_, h.1⟩
    rw [List.all_eq_true]
    intro kv hkv
    simpa using (h.2 kv hkv).1
  exact ⟨fun dealerUpCard => key [min dealerUpCard 10], key⟩

/-- Claim C3 counterexample: the Jack singleton [11] is a single-card hand
of a 10-valued rank, but the evaluator enumerates all 13 next ranks for it,
ace included, instead of the 12 ranks 2..13 the claim asserts; the source
compares the hand only against the literal lists [1] and [10]. -/
theorem claim_C3_counterexample :
    min 11 10 = 10 ∧ dealer_cant_start_with_21 = true ∧
      possibleNextCards [11] = [1, 2, 3, 4, 5, 6, 7, 8, 9, 10, 11, 12, 13] ∧
      possibleNextCards [11] ≠ [2, 3, 4, 5, 6, 7, 8, 9, 10, 11, 12, 13] := by
  decide

/-- Claim C3 (amended): with the no-initial-blackjack rule enabled, the
down-card exclusion applies exactly to the two literal single-card hands
[1] (draws uniformly from the 9 ranks 1..9) and [10] (draws uniformly from
the 12 ranks 2..13); every other hand — including the face-rank singletons
[11], [12], [13], which the constructor never produces since up-cards are
passed as 1..10 — enumerates all 13 ranks uniformly. -/
theorem claim_C3_amended (hand : List ℕ) :
    (hand = [1] → possibleNextCards hand = [1, 2, 3, 4, 5, 6, 7, 8, 9]) ∧
      (hand = [10] →
        possibleNextCards hand = [2, 3, 4, 5, 6, 7, 8, 9, 10, 11, 12, 13]) ∧
      (hand ≠ [1] → hand ≠ [10] →
        possibleNextCards hand = [1, 2, 3, 4, 5, 6, 7, 8, 9, 10, 11, 12, 13]) := by
  refine ⟨?_, ?_, ?_⟩
  · intro h
    subst h
    rw [possibleNextCards, if_pos ⟨rfl, rfl⟩]
  · intro h
    subst h
    rw [possibleNextCards, if_neg (by simp), if_pos ⟨rfl, rfl⟩]
  · intro h1 h10
    rw [possibleNextCards, if_neg (fun hc => h1 hc.1), if_neg (fun hc => h10 hc.1)]

theorem claim_C3_witness :
    possibleNextCards [1] = [1, 2, 3, 4, 5, 6, 7, 8, 9] ∧
      possibleNextCards [10] = [2, 3, 4, 5, 6, 7, 8, 9, 10, 11, 12, 13] ∧
      possibleNextCards [11] = [1, 2, 3, 4, 5, 6, 7, 8, 9, 10, 11, 12, 13] :=
  ⟨(claim_C3_amended [1]).1 rfl, (claim_C3_amended [10]).2.1 rfl,
    (claim_C3_amended [11]).2.2 (by decide) (by decide)⟩

/-- Claim C4 (code bug, evaluated at the failing input): the hand [1, 6, 10]
is a hard 17 holding an ace — its scored total is 17 and it is not soft
under the spec's convention since the ace cannot count as 11 — and the
dealer-hits-soft-17 rule is on, so the claim requires the degenerate vector
{17: 1}; but the source never resets its soft flag after rescoring a busted
soft hand, treats the hand as soft 17, and draws instead. -/
theorem claim_C4_divergence :
    (dealerHandState [1, 6, 10]).2 = 17 ∧ specSoftHand [1, 6, 10] = false ∧
      dealer_hit_on_soft_17 = true ∧ (dealerHandState [1, 6, 10]).1 = true ∧
      dealerStands [1, 6, 10] = false ∧
      evaluateDealerHand [1, 6, 10] ≠ [(17, 1)] := by
  refine ⟨by decide, by decide, rfl, by decide, by decide, ?_⟩
  intro hEq
  have h := evaluateDealerHandF_eq 2 [1, 6, 10] (by decide)
  rw [hEq] at h
  revert h
  decide

/-- Claim C5: the expected payoff is -1 for a busted player score without
consulting the outcome mapping; otherwise it equals the signed sum, over the
outcome classes of the up-card's vector, of +p for a dealer bust or lower
class, -p for a higher class and 0 for a push; and it always lies in
[-1, 1]. -/
theorem claim_C5_expected_payoff (dealerUpCard playerScore : ℕ) :
    (∀ outcomeMap : ℕ → Dist, 21 < playerScore →
        getExpectedPayoffGen outcomeMap dealerUpCard playerScore = -1) ∧
      (playerScore ≤ 21 →
        getExpectedPayoff dealerUpCard playerScore =
          payoffSpecSum (getDealerOutcome dealerUpCard) playerScore) ∧
      (-1 ≤ getExpectedPayoff dealerUpCard playerScore ∧
        getExpectedPayoff dealerUpCard playerScore ≤ 1) := by
  have hprops := dealer_dist_props [min dealerUpCard 10]
  refine ⟨?_, ?_, ?_⟩
  · intro outcomeMap h
    rw [getExpectedPayoffGen, if_pos h]
  · intro h
    rw [getExpectedPayoff, getExpectedPayoffGen, if_neg (by omega), payoffLoopAux_eq]
    rw [zero_add]
    rfl
  · by_cases h : 21 < playerScore
    · rw [getExpectedPayoff, getExpectedPayoffGen, if_pos h]
      norm_num
    · rw [getExpectedPayoff, getExpectedPayoffGen, if_neg h, payoffLoopAux_eq, zero_add]
      have hb := payoffSpecSum_bounds playerScore (evaluateDealerHand [min dealerUpCard 10])
        (fun kv hkv => (hprops.2 kv hkv).2)
      rw [hprops.1] at hb
      exact hb

theorem claim_C5_witness :
    getExpectedPayoffGen (fun _ => []) 3 22 = -1 ∧
      getExpectedPayoff 7 21 = payoffSpecSum (getDealerOutcome 7) 21 :=
  ⟨(claim_C5_expected_payoff 3 22).1 _ (by norm_num),
    (claim_C5_expected_payoff 7 21).2.1 (by norm_num)⟩

/-- Claim C9 counterexample: the dealer draws from the soft 16 hand [1, 5],
and drawing a ten leaves the scored total unchanged at 16; likewise the
dealer draws from soft 17 [1, 6] and drawing a 5 lowers the scored total to
12 — so the hand's scored total does not strictly increase by at least 1
per drawn card, contrary to the claim's stated reason. -/
theorem claim_C9_counterexample :
    dealerStands [1, 5] = false ∧
      (dealerHandState ([1, 5] ++ [10])).2 = (dealerHandState [1, 5]).2 ∧
      dealerStands [1, 6] = false ∧
      (dealerHandState ([1, 6] ++ [5])).2 < (dealerHandState [1, 6]).2 := by
  decide

/-- Claim C9 (amended): the dealer evaluation terminates for every hand
because each recursive call extends the hand by one card whose hard value
raises the hand's hard total (aces as 1) by at least 1, and recursion only
continues while the scored total — hence also the hard total — is at most
17; consequently the fuel-indexed evaluator with any fuel exceeding
18 - hardScore(hand) computes the recursion's value, bounding the depth and
making the whole table construction terminate. -/
theorem claim_C9_amended :
    (∀ (hand : List ℕ) (r : ℕ), r ∈ possibleNextCards hand →
        hardScore hand + 1 ≤ hardScore (hand ++ [r])) ∧
      (∀ hand : List ℕ, dealerStands hand = false →
        (dealerHandState hand).2 ≤ 17 ∧ hardScore hand ≤ 17) ∧
      ∀ (fuel : ℕ) (hand : List ℕ), 18 - hardScore hand < fuel →
        evaluateDealerHandF fuel hand = some (evaluateDealerHand hand) := by
  refine ⟨?_, ?_, evaluateDealerHandF_eq⟩
  · intro hand r hr
    have hpos := mem_possibleNextCards_pos hr
    rw [hardScore_append]
    have : 1 ≤ min r 10 := le_min hpos (by norm_num)
    omega
  · intro hand h
    have h' : ¬ dealerStands hand = true := by simp [h]
    have h1 := handState_le_of_not_stands hand h'
    have h2 := hardScore_le_handState hand
    exact ⟨h1, by omega⟩

theorem claim_C9_witness :
    hardScore [1, 5] + 1 ≤ hardScore ([1, 5] ++ [10]) ∧
      ((dealerHandState [1, 5]).2 ≤ 17 ∧ hardScore [1, 5] ≤ 17) ∧
      evaluateDealerHandF 1 [10, 10] = some (evaluateDealerHand [10, 10]) :=
  ⟨claim_C9_amended.1 [1, 5] 10 (by decide),
    claim_C9_amended.2.1 [1, 5] (by decide),
    claim_C9_amended.2.2 1 [10, 10] (by decide)⟩

end Dealer

namespace Player

theorem hitLoop_eq (tbl : PlayerTables) (payoff : ℕ → ℕ → ℚ) (dealerUpCard : ℕ)
    (doubleAllowed : Bool) (playerScore : ℕ) (soft : Bool) (g : ℕ → ℚ) :
    ∀ (l : List ℕ) (acc : ℚ × ℚ),
      (∀ r ∈ l, getExpectedValue tbl (hitStep playerScore soft r).1
          (hitStep playerScore soft r).2 dealerUpCard doubleAllowed = some (g r)) →
      hitLoop tbl payoff dealerUpCard doubleAllowed playerScore soft l acc =
        some (acc.1 +
            (l.map (fun r => (1 / (playerPossibleNextCards.length : ℚ)) * g r)).sum,
          acc.2 +
            (l.map (fun r => (2 / (playerPossibleNextCards.length : ℚ)) *
                payoff dealerUpCard (hitStep playerScore soft r).1)).sum) := by
  intro l
  induction l with
  | nil => intro acc _; simp [hitLoop]
  | cons r t ih =>
    intro acc hl
    simp only [hitLoop, hl r (List.mem_cons_self _ _)]
    rw [ih _ (fun r2 hr2 => hl r2 (List.mem_cons_of_mem _ hr2))]
    simp only [List.map_cons, List.sum_cons, Option.some.injEq, Prod.mk.injEq]
    constructor <;> ring

theorem hitLoop_isSome (tbl : PlayerTables) (payoff : ℕ → ℕ → ℚ) (dealerUpCard : ℕ)
    (doubleAllowed : Bool) (playerScore : ℕ) (soft : Bool) :
    ∀ (l : List ℕ) (acc : ℚ × ℚ),
      (∀ r ∈ l, (getExpectedValue tbl (hitStep playerScore soft r).1
          (hitStep playerScore soft r).2 dealerUpCard doubleAllowed).isSome = true) →
      (hitLoop tbl payoff dealerUpCard doubleAllowed playerScore soft l acc).isSome
        = true := by
  intro l
  induction l with
  | nil => intro acc _; rfl
  | cons r t ih =>
    intro acc hl
    obtain ⟨q, hq⟩ := Option.isSome_iff_exists.1 (hl r (List.mem_cons_self _ _))
    simp only [hitLoop, hq]
    exact ih _ (fun r2 hr2 => hl r2 (List.mem_cons_of_mem _ hr2))

theorem getExpectedValue_isSome (tbl : PlayerTables) (s : ℕ) (so : Bool) (u : ℕ)
    (da : Bool) (h : 21 < s ∨ EVDom tbl s so u) :
    (getExpectedValue tbl s so u da).isSome = true := by
  by_cases hb : 21 < s
  · rw [getExpectedValue, if_pos hb]
    rfl
  · rcases h with h | h
    · exact absurd h hb
    · obtain ⟨q1, h1⟩ := Option.isSome_iff_exists.1 h.1
      obtain ⟨q2, h2⟩ := Option.isSome_iff_exists.1 h.2.1
      obtain ⟨q3, h3⟩ := Option.isSome_iff_exists.1 h.2.2
      rw [getExpectedValue, if_neg hb, h1, h2, h3]
      rfl

theorem evaluatePlayerHand_isSome (tbl : PlayerTables) (payoff : ℕ → ℕ → ℚ)
    (playerScore : ℕ) (soft : Bool) (dealerUpCard : ℕ) (firstCard : Bool)
    (h : ∀ k ∈ handReadTargets playerScore soft firstCard,
      21 < k.1 ∨ EVDom tbl k.1 k.2 dealerUpCard) :
    (evaluatePlayerHand tbl payoff playerScore soft dealerUpCard firstCard).isSome
      = true := by
  by_cases hb : 21 < (adjustSoftBust (adjustForFirstCard playerScore soft firstCard)).1
  · rw [evaluatePlayerHand, if_pos hb]
    rfl
  · rw [evaluatePlayerHand, if_neg hb]
    rw [Option.isSome_map']
    refine hitLoop_isSome tbl payoff dealerUpCard _ _ _ playerPossibleNextCards (0, 0) ?_
    intro r hr
    refine getExpectedValue_isSome tbl _ _ dealerUpCard _ (h _ ?_)
    rw [handReadTargets, if_neg hb]
    exact List.mem_map.2 ⟨r, hr, rfl⟩

theorem setExpectedValue_some (payoff : ℕ → ℕ → ℚ) (tbl : PlayerTables)
    (playerScore : ℕ) (soft : Bool) (dealerUpCard : ℕ)
    (h : ∀ k ∈ handReadTargets playerScore soft false,
      21 < k.1 ∨ EVDom tbl k.1 k.2 dealerUpCard) :
    ∃ tbl2, setExpectedValue payoff tbl playerScore soft dealerUpCard = some tbl2 ∧
      (∀ s2 so2 u2, EVDom tbl2 s2 so2 u2 ↔
        ((s2 = playerScore ∧ so2 = soft ∧ u2 = dealerUpCard) ∨ EVDom tbl s2 so2 u2)) ∧
      tbl2.expectedValueForPair = tbl.expectedValueForPair ∧
      tbl2.pairMapToBaseHand = tbl.pairMapToBaseHand := by
  obtain ⟨ch, hch⟩ := Option.isSome_iff_exists.1
    (evaluatePlayerHand_isSome tbl payoff playerScore soft dealerUpCard false h)
  refine ⟨{ tbl with
      expectedValueByScoreIfHit := fun s2 so2 u2 =>
        if s2 = playerScore ∧ so2 = soft ∧ u2 = dealerUpCard then some ch.HIT
        else tbl.expectedValueByScoreIfHit s2 so2 u2,
      expectedValueByScoreIfStand := fun s2 so2 u2 =>
        if s2 = playerScore ∧ so2 = soft ∧ u2 = dealerUpCard then some ch.STAND
        else tbl.expectedValueByScoreIfStand s2 so2 u2,
      expectedValueByScoreIfDouble := fun s2 so2 u2 =>
        if s2 = playerScore ∧ so2 = soft ∧ u2 = dealerUpCard then some ch.DOUBLE
        else tbl.expectedValueByScoreIfDouble s2 so2 u2 }, ?_, ?_, rfl, rfl⟩
  · rw [setExpectedValue, hch]
    rfl
  · intro s2 so2 u2
    by_cases hkey : s2 = playerScore ∧ so2 = soft ∧ u2 = dealerUpCard
    · simp only [EVDom, if_pos hkey, Option.isSome_some]
      simp [hkey]
    · simp only [EVDom, if_neg hkey]
      constructor
      · intro hd
        exact Or.inr hd
      · rintro (hd | hd)
        · exact absurd hd hkey
        · exact hd

theorem runSetSteps_ok (payoff : ℕ → ℕ → ℚ) (dealerUpCard : ℕ) :
    ∀ (steps done : List (ℕ × Bool)) (tbl : PlayerTables),
      checkOrder done steps = true →
      (∀ k ∈ done, EVDom tbl k.1 k.2 dealerUpCard) →
      ∃ tbl2, runSetSteps payoff dealerUpCard steps tbl = some tbl2 ∧
        ∀ s so u2, EVDom tbl2 s so u2 ↔
          (((s, so) ∈ steps ∧ u2 = dealerUpCard) ∨ EVDom tbl s so u2) := by
  intro steps
  induction steps with
  | nil =>
    intro done tbl _ _
    exact ⟨tbl, rfl, by simp⟩
  | cons k rest ih =>
    intro done tbl hchk hdone
    simp only [checkOrder, Bool.and_eq_true, List.all_eq_true] at hchk
    obtain ⟨hreads, hrest⟩ := hchk
    have hread2 : ∀ t ∈ handReadTargets k.1 k.2 false,
        21 < t.1 ∨ EVDom tbl t.1 t.2 dealerUpCard := by
      intro t ht
      have h0 := hreads t ht
      simp only [Bool.or_eq_true, decide_eq_true_eq] at h0
      rcases h0 with h0 | h0
      · exact Or.inl h0
      · exact Or.inr (hdone t h0)
    obtain ⟨tbl1, hset, hdom1, _, _⟩ :=
      setExpectedValue_some payoff tbl k.1 k.2 dealerUpCard hread2
    have hdone1 : ∀ k2 ∈ done ++ [k], EVDom tbl1 k2.1 k2.2 dealerUpCard := by
      intro k2 hk2
      rcases List.mem_append.1 hk2 with h2 | h2
      · exact (hdom1 k2.1 k2.2 dealerUpCard).2 (Or.inr (hdone k2 h2))
      · simp only [List.mem_singleton] at h2
        subst h2
        exact (hdom1 k2.1 k2.2 dealerUpCard).2 (Or.inl ⟨rfl, rfl, rfl⟩)
    obtain ⟨tbl2, hrun, hdom2⟩ := ih (done ++ [k]) tbl1 hrest hdone1
    refine ⟨tbl2, ?_, ?_⟩
    · simp only [runSetSteps, hset]
      exact hrun
    · intro s so u2
      rw [hdom2, hdom1]
      simp only [List.mem_cons, Prod.ext_iff]
      tauto

theorem expectedValueOfSplittingPair_isSome (tbl : PlayerTables) (payoff : ℕ → ℕ → ℚ)
    (pairCard dealerUpCard : ℕ)
    (h : ∀ k ∈ handReadTargets pairCard (pairCard == 1) true,
      21 < k.1 ∨ EVDom tbl k.1 k.2 dealerUpCard) :
    (expectedValueOfSplittingPair tbl payoff pairCard dealerUpCard).isSome = true := by
  obtain ⟨ch, hch⟩ := Option.isSome_iff_exists.1
    (evaluatePlayerHand_isSome tbl payoff pairCard (pairCard == 1) dealerUpCard true h)
  rw [expectedValueOfSplittingPair, hch]
  rfl

theorem runPairSteps_ok (payoff : ℕ → ℕ → ℚ) (dealerUpCard : ℕ) :
    ∀ (ps : List ℕ) (tbl : PlayerTables),
      (∀ p ∈ ps, ∀ k ∈ handReadTargets p (p == 1) true,
        21 < k.1 ∨ EVDom tbl k.1 k.2 dealerUpCard) →
      ∃ tbl2, runPairSteps payoff dealerUpCard ps tbl = some tbl2 ∧
        ∀ s so u2, EVDom tbl2 s so u2 ↔ EVDom tbl s so u2 := by
  intro ps
  induction ps with
  | nil =>
    intro tbl _
    exact ⟨tbl, rfl, fun _ _ _ => Iff.rfl⟩
  | cons p rest ih =>
    intro tbl hp
    obtain ⟨ev, hev⟩ := Option.isSome_iff_exists.1
      (expectedValueOfSplittingPair_isSome tbl payoff p dealerUpCard
        (hp p (List.mem_cons_self _ _)))
    obtain ⟨tbl2, hrun, hdom⟩ := ih
      { tbl with
        expectedValueForPair := fun p2 u2 =>
          if p2 = p ∧ u2 = dealerUpCard then some ev
          else tbl.expectedValueForPair p2 u2 }
      (fun p2 hp2 k hk => hp p2 (List.mem_cons_of_mem _ hp2) k hk)
    refine ⟨tbl2, ?_, fun s so u2 => hdom s so u2⟩
    simp only [runPairSteps, hev]
    exact hrun

/-- Claim C7: for any tables, score, softness, up-card and permission flag,
the best-EV lookup returns -1 for a bust score, and otherwise the maximum
of the hit and stand EVs read from the precomputed tables, with the double
EV included in the maximum exactly when doubling is allowed. -/
theorem claim_C7_best_ev (tbl : PlayerTables) (playerScore : ℕ) (soft : Bool)
    (dealerUpCard : ℕ) (doubleAllowed : Bool) :
    (21 < playerScore →
        getExpectedValue tbl playerScore soft dealerUpCard doubleAllowed = some (-1)) ∧
      (playerScore ≤ 21 → ∀ evHit evStand evDouble : ℚ,
        tbl.expectedValueByScoreIfHit playerScore soft dealerUpCard = some evHit →
        tbl.expectedValueByScoreIfStand playerScore soft dealerUpCard = some evStand →
        tbl.expectedValueByScoreIfDouble playerScore soft dealerUpCard = some evDouble →
        getExpectedValue tbl playerScore soft dealerUpCard doubleAllowed =
          some (if doubleAllowed = true then max (max evHit evStand) evDouble
                else max evHit evStand)) := by
  constructor
  · intro h
    rw [getExpectedValue, if_pos h]
  · intro h evHit evStand evDouble hH hS hD
    rw [getExpectedValue, if_neg (by omega), hH, hS, hD]

theorem claim_C7_witness :
    getExpectedValue constTables 22 false 1 true = some (-1) ∧
      getExpectedValue constTables 21 false 1 true =
        some (if (true : Bool) = true then max (max 0 0) 0 else max 0 0) :=
  ⟨(claim_C7_best_ev constTables 22 false 1 true).1 (by norm_num),
    (claim_C7_best_ev constTables 21 false 1 true).2 (by norm_num) 0 0 0 rfl rfl rfl⟩

/-- Claim C8: for every pair rank and up-card the split EV equals exactly
twice the HIT EV of the single-card hand of that rank (softness forced by
the ace test), evaluated with firstCard true; and a lone ace as first card
is evaluated as the soft score-11 hand. -/
theorem claim_C8_split_equation (tbl : PlayerTables) (payoff : ℕ → ℕ → ℚ)
    (pairCard dealerUpCard : ℕ) :
    expectedValueOfSplittingPair tbl payoff pairCard dealerUpCard =
        (evaluatePlayerHand tbl payoff pairCard (pairCard == 1) dealerUpCard true).map
          (fun choices => 2 * choices.HIT) ∧
      ∀ soft : Bool, evaluatePlayerHand tbl payoff 1 soft dealerUpCard true =
        evaluatePlayerHand tbl payoff 11 true dealerUpCard true := by
  refine ⟨rfl, ?_⟩
  intro soft
  have h1 : adjustForFirstCard 1 soft true = (11, true) := by
    rw [adjustForFirstCard, if_pos ⟨rfl, rfl⟩]
  have h11 : adjustForFirstCard 11 true true = (11, true) := by
    rw [adjustForFirstCard, if_neg (by simp)]
  rw [evaluatePlayerHand, evaluatePlayerHand, h1, h11]

/-- Claim C10: a `setExpectedValue` call writes exactly the three EV-table
entries at its (score, softness, up-card) key: every entry of the hit, stand
and double tables at any other key, as well as the whole pair-EV table and
pair base-hand map, are unchanged. -/
theorem claim_C10_set_frame (payoff : ℕ → ℕ → ℚ) (tbl : PlayerTables)
    (playerScore : ℕ) (soft : Bool) (dealerUpCard : ℕ) :
    (∀ s so u, ¬(s = playerScore ∧ so = soft ∧ u = dealerUpCard) →
        ((setExpectedValue payoff tbl playerScore soft dealerUpCard).getD
              tbl).expectedValueByScoreIfHit s so u =
            tbl.expectedValueByScoreIfHit s so u ∧
          ((setExpectedValue payoff tbl playerScore soft dealerUpCard).getD
              tbl).expectedValueByScoreIfStand s so u =
            tbl.expectedValueByScoreIfStand s so u ∧
          ((setExpectedValue payoff tbl playerScore soft dealerUpCard).getD
              tbl).expectedValueByScoreIfDouble s so u =
            tbl.expectedValueByScoreIfDouble s so u) ∧
      ((setExpectedValue payoff tbl playerScore soft dealerUpCard).getD
          tbl).expectedValueForPair = tbl.expectedValueForPair ∧
      ((setExpectedValue payoff tbl playerScore soft dealerUpCard).getD
          tbl).pairMapToBaseHand = tbl.pairMapToBaseHand := by
  cases hch : evaluatePlayerHand tbl payoff playerScore soft dealerUpCard false with
  | none =>
    rw [setExpectedValue, hch]
    exact ⟨fun s so u _ => ⟨rfl, rfl, rfl⟩, rfl, rfl⟩
  | some ch =>
    rw [setExpectedValue, hch]
    refine ⟨?_, rfl, rfl⟩
    intro s so u hne
    exact ⟨if_neg hne, if_neg hne, if_neg hne⟩

theorem claim_C10_witness :
    ¬((20 : ℕ) = 21 ∧ false = false ∧ (1 : ℕ) = 1) ∧
      (((setExpectedValue zeroPayoff constTables 21 false 1).getD
            constTables).expectedValueByScoreIfHit 20 false 1 =
          constTables.expectedValueByScoreIfHit 20 false 1 ∧
        ((setExpectedValue zeroPayoff constTables 21 false 1).getD
            constTables).expectedValueByScoreIfStand 20 false 1 =
          constTables.expectedValueByScoreIfStand 20 false 1 ∧
        ((setExpectedValue zeroPayoff constTables 21 false 1).getD
            constTables).expectedValueByScoreIfDouble 20 false 1 =
          constTables.expectedValueByScoreIfDouble 20 false 1) :=
  ⟨by decide,
    (claim_C10_set_frame zeroPayoff constTables 21 false 1).1 20 false 1 (by decide)⟩

/-- Claim C6: for a hand that is bust after the lone-ace and soft-bust
reinterpretations, evaluation yields -1 for all three actions; for a
non-bust hand, the STAND EV is the stand payoff of the adjusted score, the
HIT EV is the sum over the 13 next ranks, each weighted 1/13, of the
best-EV lookup at the ace-aware successor state (with doubling allowed in
the lookahead iff firstCard and the double-after-split rule), and the
DOUBLE EV is the sum over the 13 next ranks, each weighted 2/13, of the
stand payoff of the successor score. -/
theorem claim_C6_evaluate_hand (tbl : PlayerTables) (payoff : ℕ → ℕ → ℚ)
    (playerScore : ℕ) (soft : Bool) (dealerUpCard : ℕ) (firstCard : Bool)
    (g : ℕ → ℚ) (a : ℕ × Bool)
    (ha : adjustSoftBust (adjustForFirstCard playerScore soft firstCard) = a) :
    (21 < a.1 →
        evaluatePlayerHand tbl payoff playerScore soft dealerUpCard firstCard =
          some ⟨-1, -1, -1⟩) ∧
      (a.1 ≤ 21 →
        (∀ r ∈ playerPossibleNextCards,
          getExpectedValue tbl (hitStep a.1 a.2 r).1 (hitStep a.1 a.2 r).2
            dealerUpCard (firstCard && allow_double_after_split) = some (g r)) →
        evaluatePlayerHand tbl payoff playerScore soft dealerUpCard firstCard =
          some ⟨(playerPossibleNextCards.map (fun r => (1 / 13 : ℚ) * g r)).sum,
            payoff dealerUpCard a.1,
            (playerPossibleNextCards.map (fun r => (2 / 13 : ℚ) *
                payoff dealerUpCard (hitStep a.1 a.2 r).1)).sum⟩) := by
  subst ha
  constructor
  · intro h
    rw [evaluatePlayerHand, if_pos h]
  · intro h hg
    rw [evaluatePlayerHand, if_neg (by omega)]
    rw [hitLoop_eq tbl payoff dealerUpCard _ _ _ g playerPossibleNextCards (0, 0) hg]
    have hlen : (playerPossibleNextCards.length : ℚ) = 13 := by
      norm_num [playerPossibleNextCards]
    rw [hlen]
    simp only [Option.map_some', zero_add]

theorem claim_C6_witness :
    (21 < (adjustSoftBust (adjustForFirstCard 26 false false)).1 ∧
        evaluatePlayerHand constTables zeroPayoff 26 false 5 false =
          some ⟨-1, -1, -1⟩) ∧
      ((21 : ℕ) ≤ 21 ∧
        evaluatePlayerHand constTables zeroPayoff 21 false 5 false =
          some ⟨(playerPossibleNextCards.map
              (fun r => (1 / 13 : ℚ) * (fun _ : ℕ => (-1 : ℚ)) r)).sum,
            zeroPayoff 5 21,
            (playerPossibleNextCards.map (fun r => (2 / 13 : ℚ) *
                zeroPayoff 5 (hitStep 21 false r).1)).sum⟩) :=
  ⟨⟨by decide,
      (claim_C6_evaluate_hand constTables zeroPayoff 26 false 5 false
          (fun _ => -1) (26, false) (by decide)).1 (by decide)⟩,
    ⟨le_rfl,
      (claim_C6_evaluate_hand constTables zeroPayoff 21 false 5 false
          (fun _ => -1) (21, false) (by decide)).2 (by decide) (by decide)⟩⟩

end Player

namespace Player

theorem buildForUpCard_isSome (payoff : ℕ → ℕ → ℚ) (dealerUpCard : ℕ)
    (tbl : PlayerTables) : (buildForUpCard payoff dealerUpCard tbl).isSome = true := by
  have hchk : checkOrder [] scoreOrder = true := by decide
  obtain ⟨tbl1, hrun, hdom⟩ :=
    runSetSteps_ok payoff dealerUpCard scoreOrder [] tbl hchk (by simp)
  have hpairsdec : pairCards.all (fun p =>
      (handReadTargets p (p == 1) true).all
        (fun t => decide (21 < t.1) || decide (t ∈ scoreOrder))) = true := by decide
  rw [List.all_eq_true] at hpairsdec
  have hpairs : ∀ p ∈ pairCards, ∀ k ∈ handReadTargets p (p == 1) true,
      21 < k.1 ∨ EVDom tbl1 k.1 k.2 dealerUpCard := by
    intro p hp k hk
    have h1 := hpairsdec p hp
    rw [List.all_eq_true] at h1
    have h2 := h1 k hk
    simp only [Bool.or_eq_true, decide_eq_true_eq] at h2
    rcases h2 with h2 | h2
    · exact Or.inl h2
    · refine Or.inr ((hdom k.1 k.2 dealerUpCard).2 (Or.inl ⟨?_, rfl⟩))
      simpa using h2
  obtain ⟨tbl2, hrun2, _⟩ := runPairSteps_ok payoff dealerUpCard pairCards tbl1 hpairs
  rw [buildForUpCard, hrun]
  show (runPairSteps payoff dealerUpCard pairCards tbl1).isSome = true
  rw [hrun2]
  rfl

theorem runUpCards_isSome (payoff : ℕ → ℕ → ℚ) :
    ∀ (l : List ℕ) (tbl : PlayerTables), (runUpCards payoff l tbl).isSome = true := by
  intro l
  induction l with
  | nil => intro tbl; rfl
  | cons u rest ih =>
    intro tbl
    obtain ⟨tbl1, h1⟩ :=
      Option.isSome_iff_exists.1 (buildForUpCard_isSome payoff u tbl)
    simp only [runUpCards, h1]
    exact ih tbl1

/-- Claim C1: under the constructor's build order — for each dealer up-card,
hard 21 down to 11, soft 21 down to 11, hard 10 down to 1, soft 10 down to
1, then the pair EVs — every EV-table read performed by `getExpectedValue`
on behalf of a hit lookahead targets an already populated entry, so the
whole table construction never reaches the missing-key failure (the build
returns `some` tables for any dealer payoff function, in particular for the
real dealer's); equivalently, `checkOrder` certifies that each step's hit
lookahead only reaches bust scores or keys filled by earlier steps, and
likewise for the pair evaluations relative to the full score order. -/
theorem claim_C1_build_order_safety :
    (∀ payoff : ℕ → ℕ → ℚ, (playerInit payoff).isSome = true) ∧
      (playerInit Dealer.getExpectedPayoff).isSome = true ∧
      checkOrder [] scoreOrder = true ∧
      pairCards.all (fun p =>
        (handReadTargets p (p == 1) true).all
          (fun t => decide (21 < t.1) || decide (t ∈ scoreOrder))) = true :=
  ⟨fun payoff => runUpCards_isSome payoff upCards initialTables,
    runUpCards_isSome Dealer.getExpectedPayoff upCards initialTables,
    by decide, by decide⟩

end Player
